import Mathlib

/-!
Verification development for the `cachedpath` Go library
(github.com/CezarGarrido/cachedpath).

The library resolves a resource identifier (local path or remote URL,
optionally followed by `!internal/path` selecting one entry inside an
archive) to a local filesystem path, caching remote content.

This file gives a shallow embedding of the parts of the code relevant to
the stated properties:
 * the path manipulation functions of Go's `path/filepath` package
   (`Clean`, `Join`, `Ext`, `Base`) on Unix, used by the archive extractor;
 * the path-traversal check of `extractZipFile` / `extractTarGz`
   (src/archive.go);
 * the single-entry extraction `extractSpecificFromZip` (src/archive.go);
 * SHA-256 and the cache-key function `ResourceToFilename` (src/util.go);
 * `ParseArchivePath` (src/util.go);
 * the retry loop `doRequestWithRetry` and `GetResource` / `GetSize` of the
   HTTP client (schemes package);
 * the temp-file-then-rename download `downloadFile` and the freshness
   check of `handleRemoteURL` over an abstract filesystem;
 * the functional options, in particular `WithBasicAuth` (src/options.go).

Go strings are modelled as `List Char` at the core (one `Char` per byte;
all strings appearing in the theorems are ASCII, where Go's UTF-8 bytes
coincide with code points), with `String` wrappers mirroring the Go API.
-/

namespace Cachedpath

/-- Split a character list on the path separator `/`.  The result is the
list of (possibly empty) segments between separators; it is never `[]`. -/
def splitSl : List Char → List (List Char)
  | [] => [[]]
  | c :: r => if c = '/' then [] :: splitSl r else (splitSl r).modifyHead (c :: ·)

/-- Render a segment list back into a path: the segments joined by `/`. -/
def renderSegs : List (List Char) → List Char
  | [] => []
  | [x] => x
  | x :: y :: r => x ++ '/' :: renderSegs (y :: r)

/-! ## Go `filepath.Clean` (Unix)

`cleanStep` processes one path segment against the stack of output
segments, exactly as Go's `Clean` does: empty and `.` segments are
dropped, `..` pops a poppable segment (or is kept at the start of a
relative path, or dropped at the root of an absolute path), and any other
segment is pushed.  The accumulator holds the output segments in reverse
order. -/
def cleanStep (rooted : Bool) (acc : List (List Char)) (c : List Char) :
    List (List Char) :=
  if c = [] ∨ c = ['.'] then acc
  else if c = ['.', '.'] then
    match acc with
    | [] => if rooted then [] else [['.', '.']]
    | top :: rest => if top = ['.', '.'] then c :: top :: rest else rest
  else c :: acc

/-- The cleaned segment list of a path whose raw segments are `l`. -/
def cleanSegs (rooted : Bool) (l : List (List Char)) : List (List Char) :=
  (l.foldl (cleanStep rooted) []).reverse

/-- Whether a path is absolute (starts with the separator). -/
def isRooted (l : List Char) : Bool :=
  decide (l.head? = some '/')

/-- Model of Go's `filepath.Clean` on Unix, at the character-list level:
returns the shortest lexically-equivalent path (`.` for the empty path,
`/`-rooted iff the input is). -/
def goCleanL (l : List Char) : List Char :=
  if l = [] then ['.']
  else if isRooted l then '/' :: renderSegs (cleanSegs true (splitSl l))
  else if cleanSegs false (splitSl l) = [] then ['.']
  else renderSegs (cleanSegs false (splitSl l))

/-- Model of Go's `filepath.Clean` on Unix. -/
def goClean (s : String) : String :=
  String.mk (goCleanL s.data)

/-- Model of Go's `filepath.Join` on two arguments (Unix): the non-empty
arguments joined by `/`, then cleaned; `""` if both are empty. -/
def goJoinL (a b : List Char) : List Char :=
  if a = [] then (if b = [] then [] else goCleanL b)
  else goCleanL (a ++ '/' :: b)

/-- Model of Go's `filepath.Join` on two arguments (Unix). -/
def goJoin (a b : String) : String :=
  String.mk (goJoinL a.data b.data)

/-- A well-formed output segment: non-empty, not `.`, and containing no
separator.  All segments produced by `cleanSegs` are of this form. -/
def GoodSeg (x : List Char) : Prop :=
  x ≠ [] ∧ x ≠ ['.'] ∧ '/' ∉ x

/-- The `/`-separated, non-empty segments of a path.  For the output of
`goCleanL` this recovers exactly the cleaned segment list, so it serves as
the lexical decomposition used to state containment of one path in
another. -/
def goCompsL (l : List Char) : List (List Char) :=
  (splitSl l).filter (fun c => c ≠ [])

/-- Segments of a `String` path. -/
def goComps (s : String) : List (List Char) :=
  goCompsL s.data

/-- Model of Go's `strings.HasPrefix(s, pre)`. -/
def hasPre (s pre : String) : Bool :=
  pre.data.isPrefixOf s.data

/-- Helper for `goExtL`: scan the reversed path from the end; stop with
nothing at a separator, return from the last dot once found. -/
def extRevAux : List Char → List Char → List Char
  | [], _ => []
  | c :: r, acc =>
    if c = '/' then [] else if c = '.' then '.' :: acc else extRevAux r (c :: acc)

/-- Model of Go's `filepath.Ext`: the suffix of the final element starting
at its final dot; empty if the final element has no dot. -/
def goExtL (l : List Char) : List Char :=
  extRevAux l.reverse []

/-- Model of Go's `filepath.Ext` on `String`. -/
def goExt (s : String) : String :=
  String.mk (goExtL s.data)

/-- Model of Go's `filepath.Base` (Unix): `.` for the empty path, trailing
separators removed, then the last element; `/` if the path is all
separators.  Note `Base "a/.."` is `".."` — `Base` does not clean. -/
def goBaseL (l : List Char) : List Char :=
  if l = [] then ['.']
  else
    let l2 := (l.reverse.dropWhile (fun c => c = '/')).reverse
    if l2 = [] then ['/']
    else (l2.reverse.takeWhile (fun c => c ≠ '/')).reverse

/-- Model of Go's `filepath.Base` on `String`. -/
def goBase (s : String) : String :=
  String.mk (goBaseL s.data)

/-- Destination-path computation and traversal check of `extractZipFile`
(src/archive.go lines 66-72). -/
def extractZipFileDest (destDir name : String) : Option String :=
  let filePath := goJoin destDir name
  if hasPre filePath (goClean destDir ++ "/") then some filePath else none

/-- Destination-path computation and traversal check of the `extractTarGz`
loop body (src/archive.go lines 123-128). -/
def extractTarGzDest (destDir name : String) : Option String :=
  let target := goJoin destDir name
  if hasPre target (goClean destDir ++ "/") then some target else none

/-- An abstract filesystem: a finite map from path to file content. -/
abbrev FS := List (String × String)

/-- Look up the content of the file at `p`, if present. -/
def fsLookup : FS → String → Option String
  | [], _ => none
  | e :: fs, p => if e.1 = p then some e.2 else fsLookup fs p

/-- Remove the file at `p` (a no-op if absent, like a deferred
`os.Remove` after a successful rename). -/
def fsRemove : FS → String → FS
  | [], _ => []
  | e :: fs, p => if e.1 = p then fsRemove fs p else e :: fsRemove fs p

/-- Write (create or truncate) the file at `p` with content `c`. -/
def fsWrite (fs : FS) (p c : String) : FS :=
  (p, c) :: fsRemove fs p

/-- Rename `src` to `dst` (moving the content); no-op if `src` is absent. -/
def fsRename (fs : FS) (src dst : String) : FS :=
  match fsLookup fs src with
  | none => fs
  | some c => fsWrite (fsRemove fs src) dst c

/-- The error values surfaced by the modelled code paths (src/errors.go
and the `fmt.Errorf` sites). -/
inductive GoErr where
  | errDownloadFailed
  | failedAfterRetries
  | downloadStatus (code : Nat)
  | headStatus (code : Nat)
  | parseContentLength
  | errSyntax
  | errRange
  | fileNotFoundInArchive
  | errIsDirectory
deriving DecidableEq, Repr

/-- Model of `extractSpecificFromZip` (src/archive.go lines 175-211): scan
the entry list for the first entry whose stored name equals
`internalPath`; compute `destPath := filepath.Join(destDir,
filepath.Base(internalPath))`, open it with
`O_WRONLY | O_CREATE | O_TRUNC`, write the entry content and return the
path; `file not found in archive` if no entry matches.
(`extractSpecificFromTarGz`, lines 213-259, computes the identical
destination path and opens it with `os.Create`, which is the same flags.)

`dirs` is the set of paths existing as directories at open time: opening
an existing directory for writing fails with `EISDIR` on Unix and the
function returns the error having written nothing.  Other open failures
(permissions, a missing or non-directory parent making the preceding
`os.MkdirAll` fail) also write nothing and are not modelled separately;
`os.MkdirAll(filepath.Dir(destPath))` itself creates no file and, in the
scenarios reachable here, only touches directories that already exist. -/
def extractSpecificFromZip (entries : List (String × String))
    (internalPath destDir : String) (dirs : List String) (fs : FS) :
    Except GoErr String × FS :=
  match entries.find? (fun f => f.1 == internalPath) with
  | some f =>
    let destPath := goJoin destDir (goBase internalPath)
    if destPath ∈ dirs then (.error .errIsDirectory, fs)
    else (.ok destPath, fsWrite fs destPath f.2)
  | none => (.error .fileNotFoundInArchive, fs)

/-- Reduce to a 32-bit word. -/
def w32 (x : Nat) : Nat := x % 4294967296

/-- 32-bit right rotation. -/
def rotr32 (n x : Nat) : Nat := w32 ((x >>> n) ||| (x <<< (32 - n)))

/-- The SHA-256 choice function. -/
def shaCh (e f g : Nat) : Nat := (e &&& f) ^^^ ((e ^^^ 4294967295) &&& g)

/-- The SHA-256 majority function. -/
def shaMaj (a b c : Nat) : Nat := (a &&& b) ^^^ (a &&& c) ^^^ (b &&& c)

/-- SHA-256 big sigma 0. -/
def bigSigma0 (a : Nat) : Nat := rotr32 2 a ^^^ rotr32 13 a ^^^ rotr32 22 a

/-- SHA-256 big sigma 1. -/
def bigSigma1 (e : Nat) : Nat := rotr32 6 e ^^^ rotr32 11 e ^^^ rotr32 25 e

/-- SHA-256 small sigma 0. -/
def smallSigma0 (x : Nat) : Nat := rotr32 7 x ^^^ rotr32 18 x ^^^ (x >>> 3)

/-- SHA-256 small sigma 1. -/
def smallSigma1 (x : Nat) : Nat := rotr32 17 x ^^^ rotr32 19 x ^^^ (x >>> 10)

/-- The SHA-256 round constants. -/
def shaK : List Nat :=
  [1116352408, 1899447441, 3049323471, 3921009573, 961987163,
   1508970993, 2453635748, 2870763221, 3624381080, 310598401,
   607225278, 1426881987, 1925078388, 2162078206, 2614888103,
   3248222580, 3835390401, 4022224774, 264347078, 604807628,
   770255983, 1249150122, 1555081692, 1996064986, 2554220882,
   2821834349, 2952996808, 3210313671, 3336571891, 3584528711,
   113926993, 338241895, 666307205, 773529912, 1294757372,
   1396182291, 1695183700, 1986661051, 2177026350, 2456956037,
   2730485921, 2820302411, 3259730800, 3345764771, 3516065817,
   3600352804, 4094571909, 275423344, 430227734, 506948616,
   659060556, 883997877, 958139571, 1322822218, 1537002063,
   1747873779, 1955562222, 2024104815, 2227730452, 2361852424,
   2428436474, 2756734187, 3204031479, 3329325298]

/-- The SHA-256 initial hash value. -/
def shaH0 : List Nat :=
  [1779033703, 3144134277, 1013904242, 2773480762,
   1359893119, 2600822924, 528734635, 1541459225]

/-- The 8-byte big-endian encoding of a 64-bit length. -/
def be64 (n : Nat) : List Nat :=
  [(n >>> 56) % 256, (n >>> 48) % 256, (n >>> 40) % 256, (n >>> 32) % 256,
   (n >>> 24) % 256, (n >>> 16) % 256, (n >>> 8) % 256, n % 256]

/-- SHA-256 padding: append `0x80`, zeros, and the 64-bit message bit
length, to a multiple of 64 bytes. -/
def shaPad (msg : List Nat) : List Nat :=
  msg ++ 128 :: List.replicate ((119 - msg.length % 64) % 64) 0
    ++ be64 (8 * msg.length)

/-- Group bytes into big-endian 32-bit words. -/
def toWords : List Nat → List Nat
  | b0 :: b1 :: b2 :: b3 :: r =>
    (((b0 * 256 + b1) * 256 + b2) * 256 + b3) :: toWords r
  | _ => []

/-- Fuelled grouping of a word list into 16-word blocks (the fuel is an
upper bound on the number of blocks; `toBlocks` supplies the list length,
which always suffices). -/
def toBlocksF : Nat → List Nat → List (List Nat)
  | 0, _ => []
  | fuel + 1, ws => if ws = [] then [] else ws.take 16 :: toBlocksF fuel (ws.drop 16)

/-- Group a word list into 16-word blocks. -/
def toBlocks (ws : List Nat) : List (List Nat) :=
  toBlocksF ws.length ws

/-- Extend the 16-word message block by `k` further schedule words. -/
def extendW : Nat → List Nat → List Nat
  | 0, w => w
  | k + 1, w =>
    extendW k (w ++ [w32 (smallSigma1 (w.getD (w.length - 2) 0)
      + w.getD (w.length - 7) 0
      + smallSigma0 (w.getD (w.length - 15) 0)
      + w.getD (w.length - 16) 0)])

/-- The full 64-word message schedule of one block. -/
def schedule (block : List Nat) : List Nat :=
  extendW 48 block

/-- The eight working variables of the SHA-256 compression loop. -/
structure SHAState where
  a : Nat
  b : Nat
  c : Nat
  d : Nat
  e : Nat
  f : Nat
  g : Nat
  h : Nat

/-- One round of the SHA-256 compression function, consuming one round
constant paired with one schedule word. -/
def shaRound (st : SHAState) (kw : Nat × Nat) : SHAState :=
  let t1 := w32 (st.h + bigSigma1 st.e + shaCh st.e st.f st.g + kw.1 + kw.2)
  let t2 := w32 (bigSigma0 st.a + shaMaj st.a st.b st.c)
  ⟨w32 (t1 + t2), st.a, st.b, st.c, w32 (st.d + t1), st.e, st.f, st.g⟩

/-- Compress one 16-word block into the running 8-word hash value. -/
def compressBlock (hs : List Nat) (block : List Nat) : List Nat :=
  let w := schedule block
  let st0 : SHAState :=
    ⟨hs.getD 0 0, hs.getD 1 0, hs.getD 2 0, hs.getD 3 0,
     hs.getD 4 0, hs.getD 5 0, hs.getD 6 0, hs.getD 7 0⟩
  let fin := (shaK.zip w).foldl shaRound st0
  [w32 (hs.getD 0 0 + fin.a), w32 (hs.getD 1 0 + fin.b),
   w32 (hs.getD 2 0 + fin.c), w32 (hs.getD 3 0 + fin.d),
   w32 (hs.getD 4 0 + fin.e), w32 (hs.getD 5 0 + fin.f),
   w32 (hs.getD 6 0 + fin.g), w32 (hs.getD 7 0 + fin.h)]

/-- SHA-256 of a byte sequence, as 32 digest bytes. -/
def sha256 (msg : List Nat) : List Nat :=
  let hs := (toBlocks (toWords (shaPad msg))).foldl compressBlock shaH0
  (hs.map (fun wrd =>
    [(wrd >>> 24) % 256, (wrd >>> 16) % 256, (wrd >>> 8) % 256, wrd % 256])).flatten

/-- One lowercase hexadecimal digit. -/
def hexDigit (n : Nat) : Char :=
  "0123456789abcdef".data.getD n '0'

/-- Model of Go's `hex.EncodeToString` over a byte list. -/
def hexEncodeToString (bytes : List Nat) : String :=
  String.mk ((bytes.map (fun b => [hexDigit (b / 16), hexDigit (b % 16)])).flatten)

/-- The byte sequence of a Go string (`[]byte(s)`).  Characters are taken
as code points; for the ASCII strings used in this development this
coincides with Go's UTF-8 bytes. -/
def goBytes (s : String) : List Nat :=
  s.data.map Char.toNat

/-- Scan for a leading URL scheme: returns the remainder after `scheme:`
when the input starts with `alpha (alphanum | + | - | .)* :`, otherwise
`none`.  The accumulator records whether any scheme character has been
read. -/
def schemeSplit : List Char → Bool → Option (List Char)
  | [], _ => none
  | c :: r, started =>
    if c = ':' then (if started then some r else none)
    else if c.isAlpha then schemeSplit r true
    else if started ∧ (c.isDigit ∨ c = '+' ∨ c = '-' ∨ c = '.') then
      schemeSplit r true
    else none

/-- The `Path` component of a URL reference, following Go's `net/url`
parsing for well-formed references. -/
def urlPathL (l : List Char) : List Char :=
  let l1 := (l.takeWhile (fun c => c ≠ '#')).takeWhile (fun c => c ≠ '?')
  match schemeSplit l1 false with
  | some r =>
    if r.take 2 = ['/', '/'] then (r.drop 2).dropWhile (fun c => c ≠ '/')
    else if isRooted r then r
    else []
  | none =>
    if l1.take 2 = ['/', '/'] then (l1.drop 2).dropWhile (fun c => c ≠ '/')
    else l1

/-- Model of `ResourceToFilename` (src/util.go lines 32-49): hex-encoded
SHA-256 of the URL bytes followed by the ETag bytes (the ETag is written
to the hash only when non-empty), with the extension of the URL's path
appended when non-empty. -/
def ResourceToFilename (resourceURL etag : String) : String :=
  let hashBytes := goBytes resourceURL ++ (if etag ≠ "" then goBytes etag else [])
  let hashStr := hexEncodeToString (sha256 hashBytes)
  let ext := String.mk (goExtL (urlPathL resourceURL.data))
  if ext ≠ "" then hashStr ++ ext else hashStr

/-- Split at the first `!`: `some (before, after)` when present. This is
the `len(parts) == 2` case of `strings.SplitN(path, "!", 2)`. -/
def splitBang : List Char → Option (List Char × List Char)
  | [] => none
  | c :: r =>
    if c = '!' then some ([], r)
    else (splitBang r).map (fun p => (c :: p.1, p.2))

/-- Model of `ParseArchivePath` (src/util.go lines 52-58): split on the
first `!`; `(base, entry, true)` when the marker occurs, `(path, "",
false)` otherwise. -/
def ParseArchivePath (path : String) : String × String × Bool :=
  match splitBang path.data with
  | some p => (String.mk p.1, String.mk p.2, true)
  | none => (path, "", false)

/-- Outcome of one `client.Do` call. -/
inductive AttemptResult where
  | netErr
  | status (code : Nat)

/-- Observable outcome of `doRequestWithRetry`. -/
structure RetryOut where
  res : Option Nat
  requests : Nat
  waits : List Nat
deriving DecidableEq, Repr

/-- The retry loop of `doRequestWithRetry` (schemes package lines 48-90).
The fuel counts the remaining loop iterations: the entry point passes
`maxRetries + 1`, so `fuel = 0` inside the loop body corresponds exactly
to Go's `attempt == c.maxRetries` break condition, and the top-level
`fuel = 0` case is never reached from the entry point.  Before each
attempt after the first the loop sleeps `retryDelay * attempt`.  A 200
response returns at once; a 4xx response is returned without error and
without retry; anything else (after closing the response) retries until
the fuel runs out, after which a pending transport error is returned as
the wrapped failure and a pending response is returned as-is. -/
def retryAux (f : Nat → AttemptResult) (delay : Nat) :
    Nat → Nat → List Nat → RetryOut
  | 0, attempt, wrev => ⟨none, attempt, wrev.reverse⟩
  | fuel + 1, attempt, wrev =>
    let wrev2 := if 0 < attempt then delay * attempt :: wrev else wrev
    match f attempt with
    | .status code =>
      if code = 200 then ⟨some code, attempt + 1, wrev2.reverse⟩
      else if 400 ≤ code ∧ code < 500 then ⟨some code, attempt + 1, wrev2.reverse⟩
      else if fuel = 0 then ⟨some code, attempt + 1, wrev2.reverse⟩
      else retryAux f delay fuel (attempt + 1) wrev2
    | .netErr =>
      if fuel = 0 then ⟨none, attempt + 1, wrev2.reverse⟩
      else retryAux f delay fuel (attempt + 1) wrev2

/-- Model of `doRequestWithRetry` with `maxRetries` retries and base delay
`delay`. -/
def doRequestWithRetry (f : Nat → AttemptResult) (maxRetries delay : Nat) :
    RetryOut :=
  retryAux f delay (maxRetries + 1) 0 []

/-- Model of the status handling of `GetResource` (schemes package lines
93-125): a wrapped transport failure or a non-200 final status is a
download failure; 200 streams the body and succeeds. -/
def GetResource (f : Nat → AttemptResult) (maxRetries delay : Nat) :
    Except GoErr Unit :=
  match (doRequestWithRetry f maxRetries delay).res with
  | none => .error .failedAfterRetries
  | some code => if code ≠ 200 then .error (.downloadStatus code) else .ok ()

/-- Model of Go's `strconv.ParseInt(s, 10, 64)`: optional sign, one or
more decimal digits, 64-bit signed range; anything else is an error. -/
def parseInt64 (s : String) : Except GoErr Int :=
  match s.data with
  | [] => .error .errSyntax
  | c :: rest =>
    let signed : Bool × List Char :=
      if c = '-' then (true, rest)
      else if c = '+' then (false, rest)
      else (false, c :: rest)
    if signed.2 = [] then .error .errSyntax
    else if signed.2.all (fun d => decide ('0' ≤ d ∧ d ≤ '9')) then
      let n := signed.2.foldl (fun acc d => acc * 10 + (d.toNat - 48)) (0 : Nat)
      if signed.1 then
        if n ≤ 9223372036854775808 then .ok (-(n : Int)) else .error .errRange
      else
        if n ≤ 9223372036854775807 then .ok (n : Int) else .error .errRange
    else .error .errSyntax

/-- Model of `GetSize` (schemes package lines 128-165).  `contentLength`
is the value of `resp.Header.Get("Content-Length")` on the final
response; an absent header reads as `""`.  A non-200 final status or a
wrapped transport failure is an error; an empty header yields size 0
without error; a non-empty header is parsed with `strconv.ParseInt`, and
a parse failure is returned as an error. -/
def GetSize (f : Nat → AttemptResult) (maxRetries delay : Nat)
    (contentLength : String) : Except GoErr Int :=
  match (doRequestWithRetry f maxRetries delay).res with
  | none => .error .failedAfterRetries
  | some code =>
    if code ≠ 200 then .error (.headStatus code)
    else if contentLength = "" then .ok 0
    else
      match parseInt64 contentLength with
      | .ok n => .ok n
      | .error _ => .error .parseContentLength

/-- Model of `downloadFile`: `fetchRes` is the outcome of
`client.GetResource` (`ok content` after a complete successful download,
`error` otherwise); `tmpPath` is the fresh temporary name chosen by
`os.CreateTemp`. -/
def downloadFile (fs : FS) (tmpPath destPath : String)
    (fetchRes : Except GoErr String) : Except GoErr Unit × FS :=
  let fs1 := fsWrite fs tmpPath ""
  match fetchRes with
  | .error _ => (.error .errDownloadFailed, fsRemove fs1 tmpPath)
  | .ok content =>
    let fs2 := fsWrite fs1 tmpPath content
    let fs3 := fsRename fs2 tmpPath destPath
    (.ok (), fsRemove fs3 tmpPath)

/-- The sidecar metadata record (src/meta.go). -/
structure Meta where
  URL : String
  ETag : String
  CachedPath : String
  CreatedAt : Nat
deriving DecidableEq, Repr

/-- The freshness decision inside the lock of `handleRemoteURL` (resolver
file lines 129-145), as written in the code: nested existence checks and
a metadata load, skipping the fetch (`true`) only when the cache file
exists, the metadata file exists, the metadata record loads without
error, and its stored ETag equals the probed one.  `loadResult` is the
outcome of `LoadMetaFromFile` (`none` models a read or unmarshal
error). -/
def skipFetchDecision (cacheExists metaExists : Bool)
    (loadResult : Option Meta) (etag : String) : Bool :=
  if cacheExists then
    if metaExists then
      match loadResult with
      | some meta => if meta.ETag == etag then true else false
      | none => false
    else false
  else false

/-- The spec's `isFresh(cachePath, revisionToken)` predicate, written
from the spec's words: a metadata record exists and is readable and its
stored revision token equals the probed token, and the cache file itself
exists. -/
def isFresh (cacheExists metaExists : Bool) (loadResult : Option Meta)
    (etag : String) : Bool :=
  cacheExists && metaExists &&
    (match loadResult with
     | some meta => meta.ETag == etag
     | none => false)

/-- An `*http.Client` value, abstractly: `emptyClient` models the literal
`&http.Client{}`, `configured` any other client. -/
inductive GoHTTPClient where
  | emptyClient
  | configured (id : Nat)
deriving DecidableEq, Repr

/-- The `Options` record (src/options.go lines 9-39).  `Headers` and
`HTTPClient` are `Option`s because the Go fields can be nil; the
`Progress` callback carries no data relevant to any claim and is
omitted. -/
structure Options where
  CacheDir : String
  ExtractArchive : Bool
  ForceExtract : Bool
  Quiet : Bool
  Headers : Option (List (String × String))
  HTTPClient : Option GoHTTPClient
  Timeout : Nat
  MaxRetries : Nat
  RetryDelay : Nat
deriving DecidableEq, Repr

/-- Model of `WithBasicAuth` (src/options.go lines 152-163): allocates an
empty HTTP client when none is set and an empty header map when none is
set; the username and password are never written anywhere. -/
def WithBasicAuth (username password : String) (o : Options) : Options :=
  let o1 := if o.HTTPClient = none then { o with HTTPClient := some .emptyClient } else o
  if o1.Headers = none then { o1 with Headers := some [] } else o1

/-- A server that always answers 204 No Content. -/
def always204 : Nat → AttemptResult := fun _ => .status 204

/-- A server that always answers 200 OK. -/
def always200 : Nat → AttemptResult := fun _ => .status 200

/-- A transport that always fails at the network level. -/
def alwaysNetErr : Nat → AttemptResult := fun _ => .netErr

/-- A server that answers 503 twice and then 200. -/
def twice503then200 : Nat → AttemptResult :=
  fun i => if i < 2 then .status 503 else .status 200

/-- A server that always answers status `c`. -/
def constStatus (c : Nat) : Nat → AttemptResult := fun _ => .status c

/-- A plain path segment: non-empty, not `.`, not `..`, no separator.
The basename of a well-behaved internal entry name is of this form. -/
def NormalSeg (x : List Char) : Prop :=
  x ≠ [] ∧ x ≠ ['.'] ∧ x ≠ ['.', '.'] ∧ '/' ∉ x

/-! ## Theorems -/

theorem splitSl_ne_nil (l : List Char) : splitSl l ≠ [] := by
  induction l with
  | nil => simp [splitSl]
  | cons c r ih =>
    simp only [splitSl]
    split
    · simp
    · cases h : splitSl r with
      | nil => exact absurd h ih
      | cons a t => simp [List.modifyHead]

theorem splitSl_append_slash (xs ys : List Char) :
    splitSl (xs ++ '/' :: ys) = splitSl xs ++ splitSl ys := by
  induction xs with
  | nil => simp [splitSl]
  | cons c r ih =>
    simp only [List.cons_append, splitSl]
    split
    · simp [ih]
    · cases h : splitSl r with
      | nil => exact absurd h (splitSl_ne_nil r)
      | cons a t =>
        have h2 : splitSl (r.append ('/' :: ys)) = splitSl r ++ splitSl ys := ih
        rw [h2, h]
        simp [List.modifyHead]

theorem splitSl_no_slash (l : List Char) :
    ∀ x ∈ splitSl l, '/' ∉ x := by
  induction l with
  | nil => intro x hx; simp [splitSl] at hx; simp [hx]
  | cons c r ih =>
    intro x hx
    simp only [splitSl] at hx
    by_cases hc : c = '/'
    · simp [hc] at hx
      rcases hx with h | h
      · simp [h]
      · exact ih x h
    · simp [hc] at hx
      cases h : splitSl r with
      | nil => exact absurd h (splitSl_ne_nil r)
      | cons a t =>
        rw [h] at hx
        simp [List.modifyHead] at hx
        rcases hx with h2 | h2
        · subst h2
          intro hmem
          simp at hmem
          rcases hmem with h3 | h3
          · exact hc h3.symm
          · exact ih a (by simp [h]) h3
        · exact ih x (by simp [h, h2])

theorem splitSl_of_no_slash (l : List Char) (h : '/' ∉ l) : splitSl l = [l] := by
  induction l with
  | nil => simp [splitSl]
  | cons c r ih =>
    simp only [splitSl]
    have hc : c ≠ '/' := by intro hh; exact h (by simp [hh])
    rw [if_neg hc, ih (by intro hh; exact h (by simp [hh]))]
    simp [List.modifyHead]

theorem splitSl_renderSegs (segs : List (List Char)) (hne : segs ≠ [])
    (hgood : ∀ x ∈ segs, '/' ∉ x) :
    splitSl (renderSegs segs) = segs := by
  induction segs with
  | nil => exact absurd rfl hne
  | cons x r ih =>
    cases r with
    | nil =>
      simp only [renderSegs]
      exact splitSl_of_no_slash x (hgood x (by simp))
    | cons y s =>
      simp only [renderSegs]
      rw [splitSl_append_slash]
      rw [splitSl_of_no_slash x (hgood x (by simp))]
      rw [ih (by simp) (by intro z hz; exact hgood z (by simp [hz]))]
      simp

theorem cleanStep_good (rooted : Bool) (acc : List (List Char)) (c : List Char)
    (hacc : ∀ x ∈ acc, GoodSeg x) (hc : '/' ∉ c) :
    ∀ x ∈ cleanStep rooted acc c, GoodSeg x := by
  have hdotdot : GoodSeg ['.', '.'] := ⟨by simp, by simp, by simp⟩
  intro x hx
  unfold cleanStep at hx
  by_cases h1 : c = [] ∨ c = ['.']
  · rw [if_pos h1] at hx
    exact hacc x hx
  · rw [if_neg h1] at hx
    by_cases h2 : c = ['.', '.']
    · rw [if_pos h2] at hx
      cases acc with
      | nil =>
        cases rooted with
        | true => simp at hx
        | false =>
          simp at hx
          subst hx
          exact hdotdot
      | cons top rest =>
        by_cases h3 : top = ['.', '.']
        · simp only [if_pos h3] at hx
          rcases List.mem_cons.mp hx with h | h
          · subst h; rw [h2]; exact hdotdot
          · exact hacc x h
        · simp only [if_neg h3] at hx
          exact hacc x (List.mem_cons_of_mem top hx)
    · rw [if_neg h2] at hx
      rcases List.mem_cons.mp hx with h | h
      · subst h
        refine ⟨?_, ?_, hc⟩
        · intro hh; exact h1 (Or.inl hh)
        · intro hh; exact h1 (Or.inr hh)
      · exact hacc x h

theorem foldl_cleanStep_good (rooted : Bool) (l : List (List Char)) :
    ∀ acc, (∀ x ∈ acc, GoodSeg x) → (∀ c ∈ l, '/' ∉ c) →
      ∀ x ∈ l.foldl (cleanStep rooted) acc, GoodSeg x := by
  induction l with
  | nil => intro acc hacc _ x hx; exact hacc x hx
  | cons c r ih =>
    intro acc hacc hl x hx
    simp only [List.foldl_cons] at hx
    exact ih (cleanStep rooted acc c)
      (cleanStep_good rooted acc c hacc (hl c (by simp)))
      (by intro z hz; exact hl z (by simp [hz])) x hx

theorem cleanSegs_good (rooted : Bool) (l : List (List Char))
    (hl : ∀ c ∈ l, '/' ∉ c) : ∀ x ∈ cleanSegs rooted l, GoodSeg x := by
  intro x hx
  simp only [cleanSegs, List.mem_reverse] at hx
  exact foldl_cleanStep_good rooted l [] (by simp) hl x hx

theorem renderSegs_cons_eq (x : List Char) (r : List (List Char)) :
    ∃ u, renderSegs (x :: r) = x ++ u := by
  cases r with
  | nil => exact ⟨[], by simp [renderSegs]⟩
  | cons y s => exact ⟨'/' :: renderSegs (y :: s), by simp [renderSegs]⟩

theorem renderSegs_ne_nil (segs : List (List Char)) (hne : segs ≠ [])
    (hgood : ∀ x ∈ segs, GoodSeg x) : renderSegs segs ≠ [] := by
  cases segs with
  | nil => exact absurd rfl hne
  | cons x r =>
    obtain ⟨u, hu⟩ := renderSegs_cons_eq x r
    rw [hu]
    have hx := (hgood x (by simp)).1
    intro hh
    rcases List.append_eq_nil.mp hh with ⟨h1, _⟩
    exact hx h1

theorem renderSegs_ne_slash_cons (segs : List (List Char)) (hne : segs ≠ [])
    (hgood : ∀ x ∈ segs, GoodSeg x) : ∀ t, renderSegs segs ≠ '/' :: t := by
  intro t hh
  cases segs with
  | nil => exact hne rfl
  | cons x r =>
    obtain ⟨u, hu⟩ := renderSegs_cons_eq x r
    rw [hu] at hh
    obtain ⟨hxne, _, hxsl⟩ := hgood x (by simp)
    cases x with
    | nil => exact hxne rfl
    | cons c cs =>
      simp at hh
      exact hxsl (by simp [hh.1])

theorem renderSegs_ne_dot_slash (segs : List (List Char)) (hne : segs ≠ [])
    (hgood : ∀ x ∈ segs, GoodSeg x) : ∀ t, renderSegs segs ≠ '.' :: '/' :: t := by
  intro t hh
  cases segs with
  | nil => exact hne rfl
  | cons x r =>
    obtain ⟨u, hu⟩ := renderSegs_cons_eq x r
    rw [hu] at hh
    obtain ⟨hxne, hxdot, hxsl⟩ := hgood x (by simp)
    cases x with
    | nil => exact hxne rfl
    | cons c cs =>
      simp at hh
      cases cs with
      | nil =>
        apply hxdot
        simp [hh.1]
      | cons c2 cs2 =>
        simp at hh
        apply hxsl
        simp [hh.2.1]

theorem goCleanL_shape (l : List Char) :
    goCleanL l = ['.'] ∨ goCleanL l = ['/'] ∨
    ∃ segs, segs ≠ [] ∧ (∀ x ∈ segs, GoodSeg x) ∧
      (goCleanL l = renderSegs segs ∨ goCleanL l = '/' :: renderSegs segs) ∧
      goCompsL (goCleanL l) = segs := by
  by_cases hl : l = []
  · left; simp [goCleanL, hl]
  · cases hr : isRooted l with
    | true =>
      cases hs : cleanSegs true (splitSl l) with
      | nil =>
        right; left
        simp [goCleanL, if_neg hl, hr, hs, renderSegs]
      | cons s ss =>
        right; right
        have hcl : goCleanL l = '/' :: renderSegs (s :: ss) := by
          simp [goCleanL, if_neg hl, hr, hs]
        have hgd : ∀ x ∈ s :: ss, GoodSeg x := by
          rw [← hs]
          exact cleanSegs_good true (splitSl l) (splitSl_no_slash l)
        have hsl : ∀ x ∈ s :: ss, '/' ∉ x := fun x hx => (hgd x hx).2.2
        have hnn : ∀ x ∈ s :: ss, x ≠ [] := fun x hx => (hgd x hx).1
        refine ⟨s :: ss, by simp, hgd, Or.inr hcl, ?_⟩
        rw [hcl]
        simp only [goCompsL, splitSl, if_pos rfl]
        rw [splitSl_renderSegs (s :: ss) (by simp) hsl]
        have hfe : List.filter (fun c => decide (c ≠ [])) (s :: ss) = s :: ss :=
          List.filter_eq_self.mpr (by intro a ha; simpa using hnn a ha)
        simpa using hfe
    | false =>
      cases hs : cleanSegs false (splitSl l) with
      | nil =>
        left
        simp [goCleanL, if_neg hl, hr, hs]
      | cons s ss =>
        right; right
        have hcl : goCleanL l = renderSegs (s :: ss) := by
          simp [goCleanL, if_neg hl, hr, hs]
        have hgd : ∀ x ∈ s :: ss, GoodSeg x := by
          rw [← hs]
          exact cleanSegs_good false (splitSl l) (splitSl_no_slash l)
        have hsl : ∀ x ∈ s :: ss, '/' ∉ x := fun x hx => (hgd x hx).2.2
        have hnn : ∀ x ∈ s :: ss, x ≠ [] := fun x hx => (hgd x hx).1
        refine ⟨s :: ss, by simp, hgd, Or.inl hcl, ?_⟩
        rw [hcl]
        simp only [goCompsL]
        rw [splitSl_renderSegs (s :: ss) (by simp) hsl]
        exact List.filter_eq_self.mpr (by intro a ha; simpa using hnn a ha)

theorem segs_of_render_append (cs cs2 : List (List Char)) (t : List Char)
    (hne : cs ≠ []) (hgood : ∀ x ∈ cs, GoodSeg x)
    (hne2 : cs2 ≠ []) (hgood2 : ∀ x ∈ cs2, GoodSeg x)
    (h : renderSegs cs2 = renderSegs cs ++ '/' :: t) :
    cs2 = cs ++ splitSl t := by
  have h1 := splitSl_renderSegs cs2 hne2 (fun x hx => (hgood2 x hx).2.2)
  rw [h, splitSl_append_slash,
    splitSl_renderSegs cs hne (fun x hx => (hgood x hx).2.2)] at h1
  exact h1.symm

/-- Core containment argument: if the clean of `m` literally extends the
clean of `a` by a separator and more characters, then the segment list of
the clean of `m` strictly extends that of the clean of `a`. -/
theorem cleanL_comps_extend (a m t : List Char)
    (ht : goCleanL m = goCleanL a ++ '/' :: t) :
    ∃ r, goCompsL (goCleanL m) = goCompsL (goCleanL a) ++ r ∧ r ≠ [] := by
  rcases goCleanL_shape a with ha | ha | ⟨cs, hne, hgood, hform, hcomps⟩
  · rw [ha] at ht
    exfalso
    rcases goCleanL_shape m with hm | hm | ⟨cs2, hne2, hgood2, hform2, _⟩
    · rw [hm] at ht; simp at ht
    · rw [hm] at ht; simp at ht
    · rcases hform2 with hf2 | hf2
      · rw [hf2] at ht
        exact renderSegs_ne_dot_slash cs2 hne2 hgood2 t (by simpa using ht)
      · rw [hf2] at ht; simp at ht
  · rw [ha] at ht
    exfalso
    rcases goCleanL_shape m with hm | hm | ⟨cs2, hne2, hgood2, hform2, _⟩
    · rw [hm] at ht; simp at ht
    · rw [hm] at ht; simp at ht
    · rcases hform2 with hf2 | hf2
      · rw [hf2] at ht
        exact renderSegs_ne_slash_cons cs2 hne2 hgood2 ('/' :: t) (by simpa using ht)
      · rw [hf2] at ht
        simp at ht
        exact renderSegs_ne_slash_cons cs2 hne2 hgood2 t ht
  · rcases hform with hf | hf
    · rw [hf] at ht
      rcases goCleanL_shape m with hm | hm | ⟨cs2, hne2, hgood2, hform2, hcomps2⟩
      · exfalso
        rw [hm] at ht
        have hlen := congrArg List.length ht
        have hrne := renderSegs_ne_nil cs hne hgood
        simp at hlen
        have : 0 < (renderSegs cs).length := List.length_pos.mpr hrne
        omega
      · exfalso
        rw [hm] at ht
        have hlen := congrArg List.length ht
        have hrne := renderSegs_ne_nil cs hne hgood
        simp at hlen
        have : 0 < (renderSegs cs).length := List.length_pos.mpr hrne
        omega
      · rcases hform2 with hf2 | hf2
        · rw [hf2] at ht
          have hseg := segs_of_render_append cs cs2 t hne hgood hne2 hgood2 ht
          refine ⟨splitSl t, ?_, splitSl_ne_nil t⟩
          rw [hcomps2, hcomps, hseg]
        · exfalso
          rw [hf2] at ht
          cases hrc : renderSegs cs with
          | nil => exact renderSegs_ne_nil cs hne hgood hrc
          | cons c rest =>
            rw [hrc] at ht
            simp at ht
            exact renderSegs_ne_slash_cons cs hne hgood rest (by rw [hrc, ht.1])
    · rw [hf] at ht
      rcases goCleanL_shape m with hm | hm | ⟨cs2, hne2, hgood2, hform2, hcomps2⟩
      · exfalso; rw [hm] at ht; simp at ht
      · exfalso
        rw [hm] at ht
        simp at ht
      · rcases hform2 with hf2 | hf2
        · exfalso
          rw [hf2] at ht
          exact renderSegs_ne_slash_cons cs2 hne2 hgood2
            (renderSegs cs ++ '/' :: t) (by simpa using ht)
        · rw [hf2] at ht
          simp at ht
          have hseg := segs_of_render_append cs cs2 t hne hgood hne2 hgood2 ht
          refine ⟨splitSl t, ?_, splitSl_ne_nil t⟩
          rw [hcomps2, hcomps, hseg]

/-! ## Lemmas about the retry loop -/
theorem retryAux_succ_pos (f : Nat → AttemptResult) (d fuel a : Nat)
    (wrev : List Nat) (ha : 0 < a) :
    retryAux f d (fuel + 1) a wrev =
      match f a with
      | .status code =>
        if code = 200 then ⟨some code, a + 1, (d * a :: wrev).reverse⟩
        else if 400 ≤ code ∧ code < 500 then
          ⟨some code, a + 1, (d * a :: wrev).reverse⟩
        else if fuel = 0 then ⟨some code, a + 1, (d * a :: wrev).reverse⟩
        else retryAux f d fuel (a + 1) (d * a :: wrev)
      | .netErr =>
        if fuel = 0 then ⟨none, a + 1, (d * a :: wrev).reverse⟩
        else retryAux f d fuel (a + 1) (d * a :: wrev) := by
  simp only [retryAux, if_pos ha]

theorem retryAux_succ_zero (f : Nat → AttemptResult) (d fuel : Nat)
    (wrev : List Nat) :
    retryAux f d (fuel + 1) 0 wrev =
      match f 0 with
      | .status code =>
        if code = 200 then ⟨some code, 1, wrev.reverse⟩
        else if 400 ≤ code ∧ code < 500 then ⟨some code, 1, wrev.reverse⟩
        else if fuel = 0 then ⟨some code, 1, wrev.reverse⟩
        else retryAux f d fuel 1 wrev
      | .netErr =>
        if fuel = 0 then ⟨none, 1, wrev.reverse⟩
        else retryAux f d fuel 1 wrev := by
  simp only [retryAux, Nat.lt_irrefl, if_false]

theorem range'_pred_cons (a l : Nat) (h : a ≤ l) :
    List.range' a (l + 1 - a) = a :: List.range' (a + 1) (l - a) := by
  have h2 : l + 1 - a = (l - a) + 1 := by omega
  rw [h2, List.range'_succ a (l - a) 1]

theorem retryAux_waits (f : Nat → AttemptResult) (d : Nat) :
    ∀ fuel a wrev, 1 ≤ a →
      ∃ l, a ≤ l ∧ (retryAux f d (fuel + 1) a wrev).requests = l + 1 ∧
        (retryAux f d (fuel + 1) a wrev).waits
          = wrev.reverse ++ (List.range' a (l + 1 - a)).map (fun i => d * i) := by
  intro fuel
  induction fuel with
  | zero =>
    intro a wrev ha
    rw [retryAux_succ_pos f d 0 a wrev ha]
    refine ⟨a, le_refl a, ?_⟩
    cases f a with
    | netErr => simp [range'_pred_cons a a (le_refl a)]
    | status code =>
      by_cases h200 : code = 200
      · simp [h200, range'_pred_cons a a (le_refl a)]
      · by_cases h4 : 400 ≤ code ∧ code < 500
        · simp [h200, h4, range'_pred_cons a a (le_refl a)]
        · simp [h200, h4, range'_pred_cons a a (le_refl a)]
  | succ k ih =>
    intro a wrev ha
    rw [retryAux_succ_pos f d (k + 1) a wrev ha]
    have hrec : ∃ l, a ≤ l ∧
        (retryAux f d (k + 1) (a + 1) (d * a :: wrev)).requests = l + 1 ∧
        (retryAux f d (k + 1) (a + 1) (d * a :: wrev)).waits
          = wrev.reverse ++ (List.range' a (l + 1 - a)).map (fun i => d * i) := by
      obtain ⟨l, hl1, hl2, hl3⟩ := ih (a + 1) (d * a :: wrev) (by omega)
      refine ⟨l, by omega, hl2, ?_⟩
      rw [hl3, List.reverse_cons, List.append_assoc,
        range'_pred_cons a l (by omega)]
      simp
    cases f a with
    | netErr =>
      simpa using hrec
    | status code =>
      by_cases h200 : code = 200
      · refine ⟨a, le_refl a, ?_⟩
        simp [h200, range'_pred_cons a a (le_refl a)]
      · by_cases h4 : 400 ≤ code ∧ code < 500
        · refine ⟨a, le_refl a, ?_⟩
          simp [h200, h4, range'_pred_cons a a (le_refl a)]
        · simpa [h200, h4] using hrec

theorem doRequestWithRetry_waits (f : Nat → AttemptResult) (m d : Nat) :
    (doRequestWithRetry f m d).waits
      = (List.range' 1 ((doRequestWithRetry f m d).requests - 1)).map
          (fun i => d * i) := by
  unfold doRequestWithRetry
  rw [retryAux_succ_zero]
  cases hf : f 0 with
  | netErr =>
    cases m with
    | zero => simp
    | succ k =>
      obtain ⟨l, hl1, hl2, hl3⟩ := retryAux_waits f d k 1 [] (le_refl 1)
      simp only [Nat.succ_ne_zero, if_false]
      rw [hl2, hl3]
      simp
  | status code =>
    by_cases h200 : code = 200
    · simp [h200]
    · by_cases h4 : 400 ≤ code ∧ code < 500
      · simp [h200, h4]
      · cases m with
        | zero => simp [h200, h4]
        | succ k =>
          obtain ⟨l, hl1, hl2, hl3⟩ := retryAux_waits f d k 1 [] (le_refl 1)
          simp only [h200, h4, Nat.succ_ne_zero, if_false]
          rw [hl2, hl3]
          simp

theorem retryAux_alwaysNetErr (d : Nat) :
    ∀ fuel a wrev,
      (retryAux alwaysNetErr d (fuel + 1) a wrev).res = none ∧
      (retryAux alwaysNetErr d (fuel + 1) a wrev).requests = a + fuel + 1 := by
  intro fuel
  induction fuel with
  | zero =>
    intro a wrev
    cases a with
    | zero => rw [retryAux_succ_zero]; exact ⟨rfl, rfl⟩
    | succ j =>
      rw [retryAux_succ_pos alwaysNetErr d 0 (j + 1) wrev (Nat.succ_pos j)]
      exact ⟨rfl, rfl⟩
  | succ k ih =>
    intro a wrev
    cases a with
    | zero =>
      rw [retryAux_succ_zero]
      have h1 := (ih 1 wrev).1
      have h2 := (ih 1 wrev).2
      refine ⟨?_, ?_⟩ <;> simp only [alwaysNetErr, Nat.succ_ne_zero, if_false]
      · exact h1
      · omega
    | succ j =>
      rw [retryAux_succ_pos alwaysNetErr d (k + 1) (j + 1) wrev (Nat.succ_pos j)]
      have h1 : (retryAux alwaysNetErr d (k + 1) (j + 1 + 1)
          (d * (j + 1) :: wrev)).res = none :=
        (ih (j + 2) (d * (j + 1) :: wrev)).1
      have h2 : (retryAux alwaysNetErr d (k + 1) (j + 1 + 1)
          (d * (j + 1) :: wrev)).requests = j + 1 + 1 + k + 1 :=
        (ih (j + 2) (d * (j + 1) :: wrev)).2
      refine ⟨?_, ?_⟩ <;> simp only [alwaysNetErr, Nat.succ_ne_zero, if_false]
      · exact h1
      · omega

theorem retryAux_constStatus (c d : Nat) (h200 : c ≠ 200)
    (h4 : ¬(400 ≤ c ∧ c < 500)) :
    ∀ fuel a wrev,
      (retryAux (constStatus c) d (fuel + 1) a wrev).res = some c ∧
      (retryAux (constStatus c) d (fuel + 1) a wrev).requests = a + fuel + 1 := by
  intro fuel
  induction fuel with
  | zero =>
    intro a wrev
    cases a with
    | zero =>
      rw [retryAux_succ_zero]
      refine ⟨?_, ?_⟩ <;> simp [constStatus, h200, h4]
    | succ j =>
      rw [retryAux_succ_pos (constStatus c) d 0 (j + 1) wrev (Nat.succ_pos j)]
      refine ⟨?_, ?_⟩ <;> simp [constStatus, h200, h4]
  | succ k ih =>
    intro a wrev
    cases a with
    | zero =>
      rw [retryAux_succ_zero]
      have h1 := (ih 1 wrev).1
      have h2 := (ih 1 wrev).2
      refine ⟨?_, ?_⟩ <;>
        simp only [constStatus, h200, h4, Nat.succ_ne_zero, if_false]
      · exact h1
      · omega
    | succ j =>
      rw [retryAux_succ_pos (constStatus c) d (k + 1) (j + 1) wrev (Nat.succ_pos j)]
      have h1 : (retryAux (constStatus c) d (k + 1) (j + 1 + 1)
          (d * (j + 1) :: wrev)).res = some c :=
        (ih (j + 2) (d * (j + 1) :: wrev)).1
      have h2 : (retryAux (constStatus c) d (k + 1) (j + 1 + 1)
          (d * (j + 1) :: wrev)).requests = j + 1 + 1 + k + 1 :=
        (ih (j + 2) (d * (j + 1) :: wrev)).2
      refine ⟨?_, ?_⟩ <;>
        simp only [constStatus, h200, h4, Nat.succ_ne_zero, if_false]
      · exact h1
      · omega

/-! ## Lemmas about the abstract filesystem -/
theorem fsLookup_write_self (fs : FS) (p c : String) :
    fsLookup (fsWrite fs p c) p = some c := by
  simp [fsLookup, fsWrite]

theorem fsLookup_remove_ne (fs : FS) (p q : String) (h : q ≠ p) :
    fsLookup (fsRemove fs p) q = fsLookup fs q := by
  induction fs with
  | nil => rfl
  | cons e fs ih =>
    have hp : p ≠ q := fun hh => h hh.symm
    by_cases he : e.1 = p
    · have heq : e.1 ≠ q := by rw [he]; exact fun hh => h hh.symm
      simp [fsRemove, fsLookup, he, heq, hp, ih]
    · by_cases heq : e.1 = q
      · simp [fsRemove, fsLookup, he, heq, h]
      · simp [fsRemove, fsLookup, he, heq, ih]

theorem fsLookup_write_ne (fs : FS) (p c q : String) (h : q ≠ p) :
    fsLookup (fsWrite fs p c) q = fsLookup fs q := by
  have hp : p ≠ q := fun hh => h hh.symm
  simp only [fsWrite, fsLookup, hp, if_false]
  exact fsLookup_remove_ne fs p q h

theorem fsLookup_remove_self (fs : FS) (p : String) :
    fsLookup (fsRemove fs p) p = none := by
  induction fs with
  | nil => rfl
  | cons e fs ih =>
    by_cases he : e.1 = p
    · simp [fsRemove, he, ih]
    · simp [fsRemove, fsLookup, he, ih]

/-! ## Bridging the extractor check to segment containment -/
theorem joinCheck_contained (d n : String)
    (h : hasPre (goJoin d n) (goClean d ++ "/") = true) :
    ∃ r, goComps (goJoin d n) = goComps (goClean d) ++ r ∧ r ≠ [] := by
  unfold hasPre at h
  have hdata : (goClean d ++ "/").data = goCleanL d.data ++ ['/'] := by
    rw [String.data_append]
    rfl
  rw [hdata] at h
  have hpre : (goCleanL d.data ++ ['/']) <+: (goJoin d n).data :=
    List.isPrefixOf_iff_prefix.mp h
  obtain ⟨u, hu⟩ := hpre
  have hu2 : goJoinL d.data n.data = goCleanL d.data ++ '/' :: u := by
    have : (goJoin d n).data = goJoinL d.data n.data := rfl
    rw [this] at hu
    rw [← hu]
    simp
  show ∃ r, goCompsL (goJoinL d.data n.data) = goCompsL (goCleanL d.data) ++ r ∧ r ≠ []
  by_cases hd : d.data = []
  · simp only [goJoinL, if_pos hd] at hu2 ⊢
    by_cases hn : n.data = []
    · simp only [if_pos hn] at hu2
      exact absurd hu2.symm (by simp)
    · simp only [if_neg hn] at hu2 ⊢
      exact cleanL_comps_extend d.data n.data u hu2
  · simp only [goJoinL, if_neg hd] at hu2 ⊢
    exact cleanL_comps_extend d.data (d.data ++ '/' :: n.data) u hu2

theorem isRooted_append (d x : List Char) (hd : d ≠ []) :
    isRooted (d ++ x) = isRooted d := by
  cases d with
  | nil => exact absurd rfl hd
  | cons c r => simp [isRooted]

theorem cleanSegs_append_normal (rooted : Bool) (l : List (List Char))
    (base : List Char) (hb : base ≠ [] ∧ base ≠ ['.'] ∧ base ≠ ['.', '.']) :
    cleanSegs rooted (l ++ [base]) = cleanSegs rooted l ++ [base] := by
  unfold cleanSegs
  rw [List.foldl_append]
  simp only [List.foldl_cons, List.foldl_nil]
  rw [show cleanStep rooted (l.foldl (cleanStep rooted) []) base
      = base :: l.foldl (cleanStep rooted) [] from ?_]
  · simp
  · unfold cleanStep
    rw [if_neg ?_, if_neg hb.2.2]
    rintro (h | h)
    · exact hb.1 h
    · exact hb.2.1 h

theorem goCompsL_clean_of_segs (m : List Char) (hm : m ≠ [])
    (hs : cleanSegs (isRooted m) (splitSl m) ≠ []) :
    goCompsL (goCleanL m) = cleanSegs (isRooted m) (splitSl m) := by
  have hgood := cleanSegs_good (isRooted m) (splitSl m) (splitSl_no_slash m)
  cases hr : isRooted m with
  | true =>
    rw [hr] at hs hgood
    cases hseg : cleanSegs true (splitSl m) with
    | nil => exact absurd hseg hs
    | cons s ss =>
      rw [hseg] at hgood
      have hcl : goCleanL m = '/' :: renderSegs (s :: ss) := by
        simp [goCleanL, if_neg hm, hr, hseg]
      rw [hcl]
      simp only [goCompsL, splitSl, if_pos rfl]
      rw [splitSl_renderSegs (s :: ss) (by simp) (fun x hx => (hgood x hx).2.2)]
      have hfe : List.filter (fun c => decide (c ≠ [])) (s :: ss) = s :: ss :=
        List.filter_eq_self.mpr (by intro a ha; simpa using (hgood a ha).1)
      simpa using hfe
  | false =>
    rw [hr] at hs hgood
    cases hseg : cleanSegs false (splitSl m) with
    | nil => exact absurd hseg hs
    | cons s ss =>
      rw [hseg] at hgood
      have hcl : goCleanL m = renderSegs (s :: ss) := by
        simp [goCleanL, if_neg hm, hr, hseg]
      rw [hcl]
      simp only [goCompsL]
      rw [splitSl_renderSegs (s :: ss) (by simp) (fun x hx => (hgood x hx).2.2)]
      exact List.filter_eq_self.mpr (by intro a ha; simpa using (hgood a ha).1)

theorem goJoinL_normal_base (d base : List Char) (hd : d ≠ [])
    (hb : NormalSeg base) :
    goCompsL (goJoinL d base) = cleanSegs (isRooted d) (splitSl d) ++ [base] := by
  have hsplit : splitSl (d ++ '/' :: base) = splitSl d ++ [base] := by
    rw [splitSl_append_slash, splitSl_of_no_slash base hb.2.2.2]
  have hro : isRooted (d ++ '/' :: base) = isRooted d := isRooted_append d _ hd
  have hseg : cleanSegs (isRooted (d ++ '/' :: base)) (splitSl (d ++ '/' :: base))
      = cleanSegs (isRooted d) (splitSl d) ++ [base] := by
    rw [hsplit, hro]
    exact cleanSegs_append_normal _ _ base ⟨hb.1, hb.2.1, hb.2.2.1⟩
  unfold goJoinL
  rw [if_neg hd]
  rw [goCompsL_clean_of_segs (d ++ '/' :: base) (by simp) (by rw [hseg]; simp)]
  exact hseg

/-! ## Lemmas about the entry-marker split -/
theorem splitBang_eq_none_iff (l : List Char) : splitBang l = none ↔ '!' ∉ l := by
  induction l with
  | nil => simp [splitBang]
  | cons c r ih =>
    by_cases hc : c = '!'
    · simp [splitBang, hc]
    · simp only [splitBang, if_neg hc]
      cases hs : splitBang r with
      | none =>
        have hr : '!' ∉ r := ih.mp hs
        have hcc : ¬('!' = c) := fun h => hc h.symm
        simp [hr, hcc]
      | some p =>
        have hmem : '!' ∈ r := by
          by_contra hm
          have := (ih.mpr hm).symm.trans hs
          simp at this
        simp [hmem]

theorem splitBang_append (a b : List Char) (h : '!' ∉ a) :
    splitBang (a ++ '!' :: b) = some (a, b) := by
  induction a with
  | nil => simp [splitBang]
  | cons c r ih =>
    have hc : c ≠ '!' := by intro hh; exact h (by simp [hh])
    simp only [List.cons_append, splitBang, if_neg hc]
    have h2 : splitBang (r.append ('!' :: b)) = some (r, b) :=
      ih (by intro hh; exact h (by simp [hh]))
    rw [h2]
    rfl

/-- C1 (amended): for every archive entry (ZIP or tar+gzip) and destination
directory, whenever the extractor accepts an entry, the path it writes is
`filepath.Join(destDir, name)` and its cleaned segment sequence strictly
extends that of `filepath.Clean(destDir)` — lexical containment within the
destination — so every entry resolving outside the destination is rejected
and no file is written outside it; in particular the traversal name
`../../etc/passwd` is rejected for destination `/dest`.  (The original
claim also said absolute-path entry names are rejected; they are not —
they are joined as relative and extracted inside the destination, see the
counterexample.) -/
theorem extract_entry_contained (destDir name p : String) :
    ((extractZipFileDest destDir name = some p ∨
      extractTarGzDest destDir name = some p) →
      p = goJoin destDir name ∧
      ∃ r, goComps p = goComps (goClean destDir) ++ r ∧ r ≠ []) ∧
    extractZipFileDest "/dest" "../../etc/passwd" = none ∧
    extractTarGzDest "/dest" "../../etc/passwd" = none := by
  refine ⟨?_, by decide, by decide⟩
  intro hor
  have hsome : (if hasPre (goJoin destDir name) (goClean destDir ++ "/")
      then some (goJoin destDir name) else none) = some p := by
    rcases hor with h | h
    · exact h
    · exact h
  by_cases hc : hasPre (goJoin destDir name) (goClean destDir ++ "/") = true
  · rw [if_pos hc] at hsome
    have hp : p = goJoin destDir name := (Option.some_inj.mp hsome).symm
    subst hp
    exact ⟨rfl, joinCheck_contained destDir name hc⟩
  · rw [if_neg hc] at hsome
    exact absurd hsome (by simp)

/-- C1 witness: the accepted entry `sub/file.txt` with destination `/dest`
is written to `/dest/sub/file.txt`, whose segments strictly extend those
of `/dest`. -/
theorem extract_entry_contained_witness :
    extractZipFileDest "/dest" "sub/file.txt" = some "/dest/sub/file.txt" ∧
    ∃ r, goComps "/dest/sub/file.txt" = goComps (goClean "/dest") ++ r ∧ r ≠ [] := by
  have h := (extract_entry_contained "/dest" "sub/file.txt" "/dest/sub/file.txt").1
    (Or.inl (by decide))
  exact ⟨by decide, h.2⟩

/-- C1 counterexample: an entry with the absolute stored name
`/etc/passwd` is NOT rejected for destination `/dest` — it is accepted and
written to `/dest/etc/passwd` — contradicting the claim that absolute-path
entry names are rejected. -/
theorem extract_entry_absolute_not_rejected :
    extractZipFileDest "/dest" "/etc/passwd" = some "/dest/etc/passwd" ∧
    extractTarGzDest "/dest" "/etc/passwd" = some "/dest/etc/passwd" := by
  decide

/-- C2: a failed fetch leaves the final cache path exactly as it was (in
particular, no file when there was none) and deletes the temporary file,
while a successful fetch publishes the complete content at the final path
by rename — so the final cache path never holds a partially-written
download. -/
theorem downloadFile_atomic (fs : FS) (tmpPath destPath : String)
    (e : GoErr) (content : String) (hne : tmpPath ≠ destPath) :
    (downloadFile fs tmpPath destPath (.error e)).1 = .error .errDownloadFailed ∧
    fsLookup (downloadFile fs tmpPath destPath (.error e)).2 destPath
      = fsLookup fs destPath ∧
    fsLookup (downloadFile fs tmpPath destPath (.error e)).2 tmpPath = none ∧
    (fsLookup fs destPath = none →
      fsLookup (downloadFile fs tmpPath destPath (.error e)).2 destPath = none) ∧
    (downloadFile fs tmpPath destPath (.ok content)).1 = .ok () ∧
    fsLookup (downloadFile fs tmpPath destPath (.ok content)).2 destPath
      = some content := by
  have hdn : destPath ≠ tmpPath := fun hh => hne hh.symm
  have herr : fsLookup (downloadFile fs tmpPath destPath (.error e)).2 destPath
      = fsLookup fs destPath := by
    show fsLookup (fsRemove (fsWrite fs tmpPath "") tmpPath) destPath = _
    rw [fsLookup_remove_ne _ _ _ hdn, fsLookup_write_ne _ _ _ _ hdn]
  refine ⟨rfl, herr, ?_, fun h => herr.trans h, rfl, ?_⟩
  · exact fsLookup_remove_self (fsWrite fs tmpPath "") tmpPath
  · have hsc : fsLookup (fsWrite (fsWrite fs tmpPath "") tmpPath content) tmpPath
        = some content := fsLookup_write_self (fsWrite fs tmpPath "") tmpPath content
    show fsLookup (fsRemove (fsRename (fsWrite (fsWrite fs tmpPath "") tmpPath
      content) tmpPath destPath) tmpPath) destPath = some content
    rw [fsLookup_remove_ne _ _ _ hdn]
    unfold fsRename
    rw [hsc]
    exact fsLookup_write_self _ destPath content

/-- C2 witness: with an empty filesystem, temp name `/c/.download-1` and
cache path `/c/key.bin`, a failed fetch leaves nothing at the cache path
and a successful fetch of content `DATA` publishes it there. -/
theorem downloadFile_atomic_witness :
    fsLookup (downloadFile [] "/c/.download-1" "/c/key.bin"
      (.error .failedAfterRetries)).2 "/c/key.bin" = none ∧
    fsLookup (downloadFile [] "/c/.download-1" "/c/key.bin"
      (.ok "DATA")).2 "/c/key.bin" = some "DATA" := by
  have h := downloadFile_atomic [] "/c/.download-1" "/c/key.bin"
    .failedAfterRetries "DATA" (by decide)
  exact ⟨h.2.2.2.1 rfl, h.2.2.2.2.2⟩

/-- C3 (amended): the retry loop treats only status exactly 200 as
immediate success (one request, no wait); a 4xx response is returned
after one request without retry; any other constant outcome — a
network-level error, or any status other than 200 outside 400..499
(including 5xx, 3xx, 1xx and non-200 2xx) — is retried until the
configured budget of `maxRetries` extra attempts is exhausted, after
which a network error surfaces as the wrapped retry failure and a status
surfaces as a download-failed error carrying that status.  (The original
claim said every 2xx succeeds immediately; only 200 does — see the
counterexample.) -/
theorem doRequestWithRetry_policy :
    (∀ (f : Nat → AttemptResult) (m d : Nat), f 0 = .status 200 →
      doRequestWithRetry f m d = ⟨some 200, 1, []⟩) ∧
    (∀ (f : Nat → AttemptResult) (m d c : Nat), f 0 = .status c →
      400 ≤ c → c < 500 → doRequestWithRetry f m d = ⟨some c, 1, []⟩) ∧
    (∀ m d c : Nat, c ≠ 200 → ¬(400 ≤ c ∧ c < 500) →
      (doRequestWithRetry (constStatus c) m d).res = some c ∧
      (doRequestWithRetry (constStatus c) m d).requests = m + 1 ∧
      GetResource (constStatus c) m d = .error (.downloadStatus c)) ∧
    (∀ m d : Nat,
      (doRequestWithRetry alwaysNetErr m d).res = none ∧
      (doRequestWithRetry alwaysNetErr m d).requests = m + 1 ∧
      GetResource alwaysNetErr m d = .error .failedAfterRetries) := by
  refine ⟨?_, ?_, ?_, ?_⟩
  · intro f m d hf
    unfold doRequestWithRetry
    rw [retryAux_succ_zero, hf]
    simp
  · intro f m d c hf h4a h4b
    unfold doRequestWithRetry
    rw [retryAux_succ_zero, hf]
    have hc200 : c ≠ 200 := by omega
    simp [hc200, h4a, h4b]
  · intro m d c h200 h4
    have h := retryAux_constStatus c d h200 h4 m 0 []
    have hres : (doRequestWithRetry (constStatus c) m d).res = some c := h.1
    refine ⟨hres, by simpa using h.2, ?_⟩
    unfold GetResource
    rw [hres]
    simp [h200]
  · intro m d
    have h := retryAux_alwaysNetErr d m 0 []
    have hres : (doRequestWithRetry alwaysNetErr m d).res = none := h.1
    refine ⟨hres, by simpa using h.2, ?_⟩
    unfold GetResource
    rw [hres]

/-- C3 witness: a first response of status 200 succeeds with a single
request and no waiting; a 404 is returned after one request without
retry; a constant 503 exhausts 3 retries (4 requests) and surfaces as a
download failure with status 503. -/
theorem doRequestWithRetry_policy_witness :
    doRequestWithRetry always200 3 7 = ⟨some 200, 1, []⟩ ∧
    doRequestWithRetry (constStatus 404) 3 7 = ⟨some 404, 1, []⟩ ∧
    (doRequestWithRetry (constStatus 503) 3 7).requests = 4 ∧
    GetResource (constStatus 503) 3 7 = .error (.downloadStatus 503) := by
  refine ⟨doRequestWithRetry_policy.1 always200 3 7 rfl,
    doRequestWithRetry_policy.2.1 (constStatus 404) 3 7 404 rfl
      (by decide) (by decide), ?_, ?_⟩
  · exact (doRequestWithRetry_policy.2.2.1 3 7 503 (by decide) (by decide)).2.1
  · exact (doRequestWithRetry_policy.2.2.1 3 7 503 (by decide) (by decide)).2.2

/-- C3 counterexample: status 204 is a 2xx response, yet the transport
does not succeed immediately — with 3 retries configured it issues 4
requests and ultimately reports a download failure, contradicting the
claim that a 2xx response succeeds immediately with no further
attempt. -/
theorem status204_is_retried :
    (doRequestWithRetry always204 3 1).requests = 4 ∧
    GetResource always204 3 1 = .error (.downloadStatus 204) :=
  ⟨rfl, rfl⟩

/-- C4: the resolver's in-lock decision skips the fetch if and only if
the cache file exists, the metadata file exists, the metadata record
loads without error, and its stored revision token (ETag) equals the
probed token — exactly the spec's `isFresh`; a missing or unreadable
record, or a missing cache file, forces a fetch. -/
theorem skipFetch_iff_isFresh (cacheExists metaExists : Bool)
    (loadResult : Option Meta) (etag : String) :
    skipFetchDecision cacheExists metaExists loadResult etag
      = isFresh cacheExists metaExists loadResult etag ∧
    (skipFetchDecision cacheExists metaExists loadResult etag = true ↔
      cacheExists = true ∧ metaExists = true ∧
      ∃ m, loadResult = some m ∧ m.ETag = etag) := by
  cases cacheExists <;> cases metaExists <;> cases loadResult <;>
    simp [skipFetchDecision, isFresh] <;>
    rename_i m <;>
    by_cases hm : m.ETag = etag <;>
    simp [hm]

/-- C5 (amended): the cache key is a pure function of the byte
concatenation identifier-bytes followed by token-bytes together with the
identifier's path extension — so repeated calls yield identical keys and
any two pairs with the same concatenation and extension yield the
identical key.  In particular distinct pairs can systematically collide:
the token is appended with no separator and an empty token appends
nothing, so `("ab", "")` and `("a", "b")` always produce the same key.
(The original claim said differing inputs yield different keys with
overwhelming probability; these pairs collide with certainty.) -/
theorem ResourceToFilename_key_deterministic :
    (∀ u1 e1 u2 e2 : String,
      goBytes u1 ++ goBytes e1 = goBytes u2 ++ goBytes e2 →
      goExtL (urlPathL u1.data) = goExtL (urlPathL u2.data) →
      ResourceToFilename u1 e1 = ResourceToFilename u2 e2) ∧
    ResourceToFilename "ab" "" = ResourceToFilename "a" "b" := by
  have hb : ∀ u e : String,
      goBytes u ++ (if e ≠ "" then goBytes e else []) = goBytes u ++ goBytes e := by
    intro u e
    by_cases he : e = ""
    · subst he; rfl
    · simp [he]
  constructor
  · intro u1 e1 u2 e2 h1 h2
    unfold ResourceToFilename
    rw [hb u1 e1, hb u2 e2, h1, h2]
  · rfl

/-- C5 witness: the determinism theorem applied at the concrete pair
`("ab", "")` versus `("a", "b")`, whose byte concatenations and
extensions agree. -/
theorem ResourceToFilename_key_deterministic_witness :
    ResourceToFilename "ab" "" = ResourceToFilename "a" "b" :=
  ResourceToFilename_key_deterministic.1 "ab" "" "a" "b" (by decide) (by decide)

/-- C5 counterexample: the distinct input pairs `("ab", "")` and
`("a", "b")` always yield the identical cache key, contradicting the
claim that differing inputs yield different keys (with overwhelming
probability — here they collide with certainty). -/
theorem ResourceToFilename_distinct_collision :
    ResourceToFilename "ab" "" = ResourceToFilename "a" "b" ∧
    ("ab", "") ≠ (("a", "b") : String × String) :=
  ⟨rfl, by decide⟩

/-- C6: before retry attempt number `i` the transport sleeps exactly the
configured base delay times `i` — the recorded wait sequence of any run
is `d*1, d*2, ...` up to the number of retries performed — and in the
scenario with 3 max retries and responses 503, 503, 200 the resolution
succeeds on the third request after waiting `d*1 + d*2`. -/
theorem retry_linear_backoff :
    (∀ (f : Nat → AttemptResult) (m d : Nat),
      (doRequestWithRetry f m d).waits
        = (List.range' 1 ((doRequestWithRetry f m d).requests - 1)).map
            (fun i => d * i)) ∧
    (∀ d : Nat, doRequestWithRetry twice503then200 3 d
      = ⟨some 200, 3, [d * 1, d * 2]⟩) := by
  constructor
  · exact doRequestWithRetry_waits
  · intro d
    unfold doRequestWithRetry
    rw [retryAux_succ_zero]
    rw [show twice503then200 0 = .status 503 from rfl]
    norm_num
    rw [retryAux_succ_pos twice503then200 d 2 1 [] (by norm_num)]
    rw [show twice503then200 1 = .status 503 from rfl]
    norm_num
    rw [retryAux_succ_pos twice503then200 d 1 2 [d] (by norm_num)]
    rw [show twice503then200 2 = .status 200 from rfl]
    norm_num

/-- C7 (amended): when the HEAD request ends with status 200, `GetSize`
returns 0 without error when the Content-Length header is absent (empty),
returns the parsed value when the header parses as a 64-bit decimal, and
returns an error — not 0 — when the header is present but unparseable.
(The original claim said an unparseable header also yields 0 without
error; see the counterexample.) -/
theorem GetSize_contentLength (f : Nat → AttemptResult) (m d : Nat)
    (h200 : (doRequestWithRetry f m d).res = some 200) :
    GetSize f m d "" = .ok 0 ∧
    (∀ cl n, parseInt64 cl = .ok n → GetSize f m d cl = .ok n) ∧
    (∀ cl e, cl ≠ "" → parseInt64 cl = .error e →
      GetSize f m d cl = .error .parseContentLength) := by
  refine ⟨?_, ?_, ?_⟩
  · unfold GetSize
    rw [h200]
    simp
  · intro cl n hp
    unfold GetSize
    rw [h200]
    by_cases hcl : cl = ""
    · subst hcl
      simp [parseInt64] at hp
    · simp [hcl, hp]
  · intro cl e hne hp
    unfold GetSize
    rw [h200]
    simp [hne, hp]

/-- C7 witness: with a 200-answering server, an empty Content-Length
yields size 0 and the parseable header `123` yields 123. -/
theorem GetSize_contentLength_witness :
    GetSize always200 3 1 "" = .ok 0 ∧ GetSize always200 3 1 "123" = .ok 123 := by
  have h := GetSize_contentLength always200 3 1 rfl
  exact ⟨h.1, h.2.1 "123" 123 rfl⟩

/-- C7 counterexample: the present but unparseable Content-Length header
`abc` makes `GetSize` return an error, where the claim requires 0 without
error. -/
theorem GetSize_unparseable_errors :
    GetSize always200 3 1 "abc" = .error .parseContentLength ∧
    GetSize always200 3 1 "abc" ≠ .ok 0 :=
  ⟨rfl, by
    intro h
    rw [show GetSize always200 3 1 "abc"
        = Except.error GoErr.parseContentLength from rfl] at h
    exact Except.noConfusion h⟩

/-- C8 (amended): the parser reports an internal entry present exactly
when the identifier contains the `!` marker, and the entry string is the
verbatim suffix after the first marker — which may be empty, as when the
identifier ends in `!`.  (The original claim said a reported entry is
always non-empty; see the counterexample.) -/
theorem ParseArchivePath_marker (s : String) :
    ((ParseArchivePath s).2.2 = true ↔ '!' ∈ s.data) ∧
    ((ParseArchivePath s).2.2 = false → ParseArchivePath s = (s, "", false)) ∧
    (∀ a b : List Char, '!' ∉ a →
      ParseArchivePath (String.mk (a ++ '!' :: b))
        = (String.mk a, String.mk b, true)) := by
  refine ⟨?_, ?_, ?_⟩
  · unfold ParseArchivePath
    cases hs : splitBang s.data with
    | none => simp [(splitBang_eq_none_iff s.data).mp hs]
    | some p =>
      simp only []
      constructor
      · intro _
        by_contra hmem
        have hn := (splitBang_eq_none_iff s.data).mpr hmem
        rw [hn] at hs
        exact Option.noConfusion hs
      · intro _; trivial
  · unfold ParseArchivePath
    cases hs : splitBang s.data with
    | none => intro _; rfl
    | some p => intro h; simp at h
  · intro a b ha
    unfold ParseArchivePath
    rw [show (String.mk (a ++ '!' :: b)).data = a ++ '!' :: b from rfl]
    rw [splitBang_append a b ha]

/-- C8 witness: the identifier `a.zip!inner.bin` contains the marker and
parses into base `a.zip` and verbatim entry `inner.bin`. -/
theorem ParseArchivePath_marker_witness :
    ParseArchivePath (String.mk ("a.zip".data ++ '!' :: "inner.bin".data))
      = ("a.zip", "inner.bin", true) :=
  (ParseArchivePath_marker "a.zip").2.2 "a.zip".data "inner.bin".data (by decide)

/-- C8 counterexample: the identifier `model.zip!` makes the parser
report an internal entry (`hasEntry = true`) whose extracted string is
empty, contradicting the claim that a reported entry is non-empty. -/
theorem ParseArchivePath_empty_entry :
    (ParseArchivePath "model.zip!").2.2 = true ∧
    (ParseArchivePath "model.zip!").2.1 = "" :=
  ⟨rfl, rfl⟩

/-- Helper: the head of a `dropWhile` result fails the predicate. -/
theorem dropWhile_head_not (p : Char → Bool) (l : List Char) :
    ∀ c rest, l.dropWhile p = c :: rest → p c = false := by
  induction l with
  | nil => intro c rest h; simp [List.dropWhile] at h
  | cons a l ih =>
    intro c rest h
    by_cases hp : p a = true
    · rw [List.dropWhile_cons, if_pos hp] at h
      exact ih c rest h
    · rw [List.dropWhile_cons, if_neg hp] at h
      rw [← (List.cons.inj h).1]
      simpa using hp

/-- Helper: every element of a `takeWhile` result satisfies the
predicate. -/
theorem mem_takeWhile_pred (p : Char → Bool) (l : List Char) :
    ∀ x ∈ l.takeWhile p, p x = true := by
  induction l with
  | nil => simp [List.takeWhile]
  | cons a l ih =>
    intro x hx
    rw [List.takeWhile_cons] at hx
    by_cases hp : p a = true
    · rw [if_pos hp] at hx
      rcases List.mem_cons.mp hx with h | h
      · rw [h]; exact hp
      · exact ih x h
    · rw [if_neg hp] at hx
      simp at hx

/-- The possible outputs of `filepath.Base`: either `/` (an all-separator
path) or a non-empty separator-free final segment — which can still be
`.` or `..`. -/
theorem goBaseL_shape (l : List Char) :
    goBaseL l = ['/'] ∨ (goBaseL l ≠ [] ∧ '/' ∉ goBaseL l) := by
  unfold goBaseL
  by_cases hl : l = []
  · right
    rw [if_pos hl]
    exact ⟨by simp, by simp⟩
  · rw [if_neg hl]
    by_cases h2 : (l.reverse.dropWhile (fun c => c = '/')).reverse = []
    · left
      rw [if_pos h2]
    · right
      rw [if_neg h2]
      rw [List.reverse_reverse]
      have hdw : l.reverse.dropWhile (fun c => decide (c = '/')) ≠ [] := by
        intro hh
        apply h2
        rw [hh]
        rfl
      cases hdwc : l.reverse.dropWhile (fun c => decide (c = '/')) with
      | nil => exact absurd hdwc hdw
      | cons c rest =>
        have hc : decide (c = '/') = false :=
          dropWhile_head_not (fun c => decide (c = '/')) l.reverse c rest hdwc
        have hcne : c ≠ '/' := by simpa using hc
        rw [List.takeWhile_cons, if_pos (by simpa using hcne)]
        constructor
        · simp
        · intro hmem
          rw [List.mem_reverse] at hmem
          rcases List.mem_cons.mp hmem with h | h
          · exact hcne h.symm
          · have := mem_takeWhile_pred (fun c => decide (c ≠ '/')) rest '/' h
            simp at this

/-- Cleaning drops a trailing empty or `.` segment. -/
theorem cleanSegs_append_dropseg (rooted : Bool) (l : List (List Char))
    (c : List Char) (hc : c = [] ∨ c = ['.']) :
    cleanSegs rooted (l ++ [c]) = cleanSegs rooted l := by
  unfold cleanSegs
  rw [List.foldl_append]
  simp only [List.foldl_cons, List.foldl_nil]
  rw [show cleanStep rooted (l.foldl (cleanStep rooted) []) c
      = l.foldl (cleanStep rooted) [] from by unfold cleanStep; rw [if_pos hc]]

/-- If appending `/ ++ b` to a non-empty path leaves the cleaned segment
list unchanged, the whole `Clean` output is unchanged. -/
theorem goCleanL_join_eq (d b : List Char) (hd : d ≠ [])
    (hsp : ∀ r, cleanSegs r (splitSl (d ++ '/' :: b)) = cleanSegs r (splitSl d)) :
    goCleanL (d ++ '/' :: b) = goCleanL d := by
  have hro : isRooted (d ++ '/' :: b) = isRooted d := isRooted_append d _ hd
  unfold goCleanL
  rw [if_neg (by simp : ¬(d ++ '/' :: b = [])), if_neg hd, hro, hsp true, hsp false]

/-- Joining `.` onto a non-empty path cleans to the path itself. -/
theorem goJoinL_dot (d : List Char) (hd : d ≠ []) :
    goJoinL d ['.'] = goCleanL d := by
  unfold goJoinL
  rw [if_neg hd]
  apply goCleanL_join_eq d ['.'] hd
  intro r
  rw [splitSl_append_slash, splitSl_of_no_slash ['.'] (by simp)]
  exact cleanSegs_append_dropseg r (splitSl d) ['.'] (Or.inr rfl)

/-- Joining `/` onto a non-empty path cleans to the path itself. -/
theorem goJoinL_slash (d : List Char) (hd : d ≠ []) :
    goJoinL d ['/'] = goCleanL d := by
  unfold goJoinL
  rw [if_neg hd]
  apply goCleanL_join_eq d ['/'] hd
  intro r
  rw [splitSl_append_slash]
  rw [show splitSl ['/'] = [[], []] from rfl]
  rw [show (splitSl d ++ [[], []] : List (List Char))
      = (splitSl d ++ [[]]) ++ [[]] from by simp]
  rw [cleanSegs_append_dropseg r (splitSl d ++ [[]]) [] (Or.inl rfl)]
  exact cleanSegs_append_dropseg r (splitSl d) [] (Or.inl rfl)

/-- C9: single-entry extraction writes its output only to
`filepath.Join(destDir, filepath.Base(internalName))` — a path directly
inside the destination directory — and on success returns exactly that
path, regardless of any `..`, `/`, or absolute-path components in the
requested internal name.  `Base` leaves only a single final segment; when
that segment is `.`, `..`, or `/` the computed path is the destination
itself or its parent, which exist as directories (`EnsureDir(destDir)`
guarantees the whole ancestor chain), so the `O_WRONLY|O_CREATE|O_TRUNC`
open fails with `EISDIR` and nothing is written or returned.  A successful
extraction therefore has a plain-segment basename, and its output path
extends the destination's cleaned segments by exactly that segment.  The
hypotheses record the `EnsureDir` guarantee: the cleaned destination and
the directory `..` resolves to from it exist as directories. -/
theorem ExtractSpecificFile_dest (entries : List (String × String))
    (internalPath destDir : String) (dirs : List String) (fs : FS) (p : String)
    (hdest : destDir ≠ "")
    (hdir1 : goClean destDir ∈ dirs)
    (hdir2 : goJoin destDir ".." ∈ dirs)
    (h : (extractSpecificFromZip entries internalPath destDir dirs fs).1
      = .ok p) :
    p = goJoin destDir (goBase internalPath) ∧
    (∀ q, q ≠ p →
      fsLookup (extractSpecificFromZip entries internalPath destDir dirs fs).2 q
        = fsLookup fs q) ∧
    NormalSeg (goBaseL internalPath.data) ∧
    goCompsL p.data
      = cleanSegs (isRooted destDir.data) (splitSl destDir.data)
          ++ [goBaseL internalPath.data] := by
  have hdd : destDir.data ≠ [] := by
    intro hh
    apply hdest
    have h2 := congrArg String.mk hh
    exact h2
  cases hf : entries.find? (fun f => f.1 == internalPath) with
  | none =>
    have hres : extractSpecificFromZip entries internalPath destDir dirs fs
        = (.error .fileNotFoundInArchive, fs) := by
      unfold extractSpecificFromZip
      rw [hf]
    rw [hres] at h
    exact absurd h (by simp)
  | some f =>
    by_cases hmem : goJoin destDir (goBase internalPath) ∈ dirs
    · have hres : extractSpecificFromZip entries internalPath destDir dirs fs
          = (.error .errIsDirectory, fs) := by
        unfold extractSpecificFromZip
        rw [hf]
        show (if goJoin destDir (goBase internalPath) ∈ dirs
              then ((Except.error GoErr.errIsDirectory : Except GoErr String), fs)
              else (Except.ok (goJoin destDir (goBase internalPath)),
                    fsWrite fs (goJoin destDir (goBase internalPath)) f.2)) = _
        rw [if_pos hmem]
      rw [hres] at h
      exact absurd h (by simp)
    · have hres : extractSpecificFromZip entries internalPath destDir dirs fs
          = (.ok (goJoin destDir (goBase internalPath)),
             fsWrite fs (goJoin destDir (goBase internalPath)) f.2) := by
        unfold extractSpecificFromZip
        rw [hf]
        show (if goJoin destDir (goBase internalPath) ∈ dirs
              then ((Except.error GoErr.errIsDirectory : Except GoErr String), fs)
              else (Except.ok (goJoin destDir (goBase internalPath)),
                    fsWrite fs (goJoin destDir (goBase internalPath)) f.2)) = _
        rw [if_neg hmem]
      rw [hres] at h
      have hp : goJoin destDir (goBase internalPath) = p := Except.ok.inj h
      subst hp
      have hnb : NormalSeg (goBaseL internalPath.data) := by
        rcases goBaseL_shape internalPath.data with hb | ⟨hbne, hbsl⟩
        · exfalso
          apply hmem
          have hbs : goBase internalPath = "/" := by
            unfold goBase
            rw [hb]
          have hj : goJoin destDir "/" = goClean destDir := by
            unfold goJoin goClean
            exact congrArg String.mk (goJoinL_slash destDir.data hdd)
          rw [hbs, hj]
          exact hdir1
        · by_cases hdot : goBaseL internalPath.data = ['.']
          · exfalso
            apply hmem
            have hbs : goBase internalPath = "." := by
              unfold goBase
              rw [hdot]
            have hj : goJoin destDir "." = goClean destDir := by
              unfold goJoin goClean
              exact congrArg String.mk (goJoinL_dot destDir.data hdd)
            rw [hbs, hj]
            exact hdir1
          · by_cases hddot : goBaseL internalPath.data = ['.', '.']
            · exfalso
              apply hmem
              have hbs : goBase internalPath = ".." := by
                unfold goBase
                rw [hddot]
              rw [hbs]
              exact hdir2
            · exact ⟨hbne, hdot, hddot, hbsl⟩
      refine ⟨rfl, ?_, hnb, ?_⟩
      · intro q hq
        rw [hres]
        show fsLookup (fsWrite fs (goJoin destDir (goBase internalPath)) f.2) q
          = fsLookup fs q
        exact fsLookup_write_ne _ _ _ _ hq
      · show goCompsL (goJoinL destDir.data (goBaseL internalPath.data)) = _
        exact goJoinL_normal_base destDir.data (goBaseL internalPath.data) hdd hnb

/-- C9 witness: requesting `weights/model.bin` from an archive containing
it, with destination `/cache/extracted/a.zip` (which exists as a
directory, as does its parent), succeeds with
`/cache/extracted/a.zip/model.bin` — the basename `model.bin` is a plain
segment and the output is directly inside the destination. -/
theorem ExtractSpecificFile_dest_witness :
    (extractSpecificFromZip [("weights/model.bin", "DATA")] "weights/model.bin"
        "/cache/extracted/a.zip" ["/cache/extracted/a.zip", "/cache/extracted"]
        []).1 = .ok "/cache/extracted/a.zip/model.bin" ∧
    NormalSeg (goBaseL ("weights/model.bin" : String).data) ∧
    goCompsL ("/cache/extracted/a.zip/model.bin" : String).data
      = cleanSegs (isRooted ("/cache/extracted/a.zip" : String).data)
          (splitSl ("/cache/extracted/a.zip" : String).data)
          ++ [goBaseL ("weights/model.bin" : String).data] := by
  have h := ExtractSpecificFile_dest [("weights/model.bin", "DATA")]
    "weights/model.bin" "/cache/extracted/a.zip"
    ["/cache/extracted/a.zip", "/cache/extracted"] []
    "/cache/extracted/a.zip/model.bin" (by decide) (by decide) (by decide) rfl
  exact ⟨rfl, h.2.2.1, h.2.2.2⟩

/-- C10: applying the basic-authentication option never writes the
username or password anywhere — the result is independent of both — and
adds no entry to the header map (in particular no Authorization header):
it only replaces a nil client with an empty one and a nil header map
with an empty one. -/
theorem WithBasicAuth_adds_nothing (username password u2 p2 : String)
    (o : Options) :
    WithBasicAuth username password o = WithBasicAuth u2 p2 o ∧
    (WithBasicAuth username password o).Headers.getD [] = o.Headers.getD [] ∧
    (WithBasicAuth username password o).CacheDir = o.CacheDir ∧
    (WithBasicAuth username password o).MaxRetries = o.MaxRetries := by
  unfold WithBasicAuth
  by_cases hc : o.HTTPClient = none <;> by_cases hh : o.Headers = none <;>
    simp [hc, hh]
